import Mathlib

/-!
Verification of the core algorithms of `filter_ips.py` (multi-country GeoIP
IP-list filtering): network optimization (`collapse_networks`), the batch
classifier (`_process_ip_batch`), the parallel dispatcher with sequential
fallback (`process_single_country`), the combined dedup/sort stage
(`filter_multi_country_ips`) and the worker-count computation.

Python strings are modelled as lists of characters (`PyStr`); IPv4 addresses
as natural numbers below 2^32; a CIDR network as a structure holding its
(masked) network address and its CIDR length.  The Python standard library
`ipaddress` routines used by the script (`ip_network`, `collapse_addresses`)
and the `pysubnettree` lookup structure are embedded by their documented
semantics, operating on these values.
-/

set_option maxRecDepth 4000

/-- Python strings, modelled as lists of characters. -/
abbrev PyStr := List Char

/-- ASCII whitespace as stripped by Python's `str.strip()`. -/
def isSpaceChar (c : Char) : Bool :=
  c = ' ' || c = '\t' || c = '\n' || c = '\r' || c = '\x0b' || c = '\x0c'

/-- Model of Python `str.strip()`: drop leading and trailing whitespace. -/
def trimChars (s : PyStr) : PyStr :=
  ((s.dropWhile isSpaceChar).reverse.dropWhile isSpaceChar).reverse

/-- Numeric value of a decimal digit character. -/
def digitVal (c : Char) : Nat := c.toNat - '0'.toNat

/-- Model of the octet parser of Python `ipaddress` (`_parse_octet`):
at most three characters, decimal digits only, no leading zeros, value
at most 255. -/
def parseOctet (s : PyStr) : Option Nat :=
  if s.length = 0 ∨ 3 < s.length then none
  else if ¬ s.all Char.isDigit then none
  else if 1 < s.length ∧ s.head? = some '0' then none
  else
    let v := s.foldl (fun a c => 10 * a + digitVal c) 0
    if v ≤ 255 then some v else none

/-- Decimal digit character for a value below 10. -/
def digitChar (n : Nat) : Char := Char.ofNat ('0'.toNat + n)

/-- Decimal rendering of a number up to 255 (an octet, or a CIDR length). -/
def octetStr (n : Nat) : PyStr :=
  if n < 10 then [digitChar n]
  else if n < 100 then [digitChar (n / 10), digitChar (n % 10)]
  else [digitChar (n / 100), digitChar (n / 10 % 10), digitChar (n % 10)]

/-- Split a character list at every occurrence of a separator character,
as Python `str.split(sep)` does. -/
def splitOnChar (sep : Char) : PyStr → List PyStr
  | [] => [[]]
  | c :: rest =>
    if c = sep then [] :: splitOnChar sep rest
    else (c :: (splitOnChar sep rest).headI) :: (splitOnChar sep rest).tail

/-- Parse a dotted-quad IPv4 address into its 32-bit value. -/
def parseIPv4 (s : PyStr) : Option Nat :=
  match splitOnChar '.' s with
  | [a, b, c, d] =>
    match parseOctet a, parseOctet b, parseOctet c, parseOctet d with
    | some va, some vb, some vc, some vd =>
      some (((va * 256 + vb) * 256 + vc) * 256 + vd)
    | _, _, _, _ => none
  | _ => none

/-- Dotted-quad rendering of a 32-bit IPv4 address value. -/
def ipStr (a : Nat) : PyStr :=
  octetStr (a / 16777216 % 256) ++ '.' ::
  (octetStr (a / 65536 % 256) ++ '.' ::
  (octetStr (a / 256 % 256) ++ '.' :: octetStr (a % 256)))

/-- An IPv4 CIDR network: the (masked) network address and the CIDR length,
mirroring `ipaddress.IPv4Network` as the script uses it. -/
structure IPNetwork where
  addr : Nat
  plen : Nat
deriving DecidableEq, Repr

/-- Number of addresses in a block of the given CIDR length. -/
def blockSize (p : Nat) : Nat := 2 ^ (32 - p)

/-- Last (broadcast) address of a network. -/
def IPNetwork.lastAddr (n : IPNetwork) : Nat := n.addr + blockSize n.plen - 1

/-- Whether a 32-bit address value falls inside a network. -/
def IPNetwork.containsAddr (n : IPNetwork) (a : Nat) : Bool :=
  decide (n.addr ≤ a) && decide (a ≤ n.lastAddr)

/-- Model of the CIDR-length parser of Python `ipaddress`
(`_prefix_from_prefix_string`): decimal digits only, value at most 32. -/
def parsePlen (s : PyStr) : Option Nat :=
  if s.length = 0 then none
  else if ¬ s.all Char.isDigit then none
  else
    let v := s.foldl (fun a c => 10 * a + digitVal c) 0
    if v ≤ 32 then some v else none

/-- Model of `ipaddress.ip_network(s, strict)` restricted to IPv4 with a
numeric CIDR length (the only forms occurring in this pipeline): a bare
address parses as a /32; `addr/len` parses the two parts; in strict mode
set host bits are an error (the caller drops the entry), in non-strict
mode they are masked away. -/
def ip_network (strict : Bool) (s : PyStr) : Option IPNetwork :=
  match splitOnChar '/' s with
  | [a] => (parseIPv4 a).map (fun v => ⟨v, 32⟩)
  | [a, p] =>
    match parseIPv4 a, parsePlen p with
    | some va, some vp =>
      if strict && decide (va % blockSize vp ≠ 0) then none
      else some ⟨va - va % blockSize vp, vp⟩
    | _, _ => none
  | _ => none

/-- Model of Python `str(network)`: dotted-quad address, a slash, and the
CIDR length in decimal. -/
def netToString (n : IPNetwork) : PyStr := ipStr n.addr ++ '/' :: octetStr n.plen

/-- The inclusive address range covered by a network. -/
def IPNetwork.toRange (n : IPNetwork) : Nat × Nat := (n.addr, n.lastAddr)

/-- Insert a range into a list kept sorted by start address. -/
def insRange (r : Nat × Nat) : List (Nat × Nat) → List (Nat × Nat)
  | [] => [r]
  | s :: rest => if r.1 ≤ s.1 then r :: s :: rest else s :: insRange r rest

/-- Sort ranges ascending by start address (insertion sort). -/
def sortRanges (l : List (Nat × Nat)) : List (Nat × Nat) := l.foldr insRange []

/-- Sweep a start-sorted list of ranges, absorbing every range that overlaps
or is adjacent to the running range, and emitting the running range when a
gap is reached. -/
def mergeInto (r : Nat × Nat) : List (Nat × Nat) → List (Nat × Nat)
  | [] => [r]
  | s :: rest =>
    if s.1 ≤ r.2 + 1 then mergeInto (r.1, max r.2 s.2) rest else r :: mergeInto s rest

/-- Merge overlapping and adjacent ranges of a start-sorted list into
maximal contiguous runs. -/
def mergeSorted : List (Nat × Nat) → List (Nat × Nat)
  | [] => []
  | r :: rest => mergeInto r rest

/-- Largest k at most n satisfying a downward-closed property (0 if none). -/
def largestK (p : Nat → Bool) : Nat → Nat
  | 0 => 0
  | k + 1 => if p (k + 1) then k + 1 else largestK p k

/-- Size (as a power of two) of the largest CIDR block starting at lo and
contained in [lo, hi]: limited by the alignment of lo and by the span,
as in `ipaddress.summarize_address_range`. -/
def blockLog (lo hi : Nat) : Nat :=
  min (largestK (fun k => lo % 2 ^ k == 0) 32)
      (largestK (fun k => decide (2 ^ k ≤ hi + 1 - lo)) 32)

/-- Greedy decomposition of an inclusive address range into maximal CIDR
blocks (fuel-indexed for structural recursion; the fuel is the range size). -/
def rangeToCidrsGo : Nat → Nat → Nat → List IPNetwork
  | 0, _, _ => []
  | fuel + 1, lo, hi =>
    if lo ≤ hi then
      ⟨lo, 32 - blockLog lo hi⟩ :: rangeToCidrsGo fuel (lo + 2 ^ blockLog lo hi) hi
    else []

/-- Decompose the inclusive range [lo, hi] into the canonical minimal list
of CIDR blocks, ascending. -/
def rangeToCidrs (lo hi : Nat) : List IPNetwork := rangeToCidrsGo (hi + 1 - lo) lo hi

/-- Model of `ipaddress.collapse_addresses`: the canonical minimal CIDR
cover of the union of the inputs — sort the covered ranges, merge
overlapping and adjacent ranges into maximal runs, and decompose each run
into maximal CIDR blocks, ascending by start address. -/
def collapse_addresses (nets : List IPNetwork) : List IPNetwork :=
  ((mergeSorted (sortRanges (nets.map IPNetwork.toRange))).map
    (fun r => rangeToCidrs r.1 r.2)).flatten

/-- Embedding of `collapse_networks` (filter_ips.py lines 264-321): strip and
strictly parse each CIDR string, dropping invalid entries, collapse the
valid networks, and render the result back to strings. -/
def collapse_networks (network_strs : List PyStr) : List PyStr :=
  (collapse_addresses
    (network_strs.filterMap (fun s => ip_network true (trimChars s)))).map netToString

/-- Membership semantics of a `pysubnettree.SubnetTree` holding the given
networks: an address is in the tree when some inserted network contains it. -/
def inTree (tree : List IPNetwork) (a : Nat) : Bool :=
  tree.any (fun n => n.containsAddr a)

/-- Lookup key of a cleaned entry (filter_ips.py lines 445-462): an entry
holding a slash is parsed non-strictly as a network and keyed by its network
address; any other entry is keyed by its own value as an address.  `none`
models an entry dropped for a parse or lookup error. -/
def entryKey (c : PyStr) : Option Nat :=
  if c.contains '/' then (ip_network false c).map IPNetwork.addr else parseIPv4 c

/-- Embedding of `_init_worker` (lines 328-385) and of the fallback tree
construction (lines 661-666): insert each CIDR string into a fresh
SubnetTree, skipping entries the tree rejects. -/
def _init_worker (cidr_list : List PyStr) : List IPNetwork :=
  cidr_list.filterMap (fun s => ip_network false s)

/-- Embedding of `_process_ip_batch` (lines 388-486): per entry — strip
whitespace, skip empties, compute the lookup key (dropping the entry on a
parse or lookup failure), and emit the stripped original entry exactly when
the key is in the tree.  A total function: every failure path of the Python
loop is a counted `continue`, never an escaping exception. -/
def _process_ip_batch (tree : List IPNetwork) : List PyStr → List PyStr
  | [] => []
  | raw :: rest =>
    if (trimChars raw).isEmpty then _process_ip_batch tree rest
    else
      match entryKey (trimChars raw) with
      | none => _process_ip_batch tree rest
      | some k =>
        if inTree tree k then trimChars raw :: _process_ip_batch tree rest
        else _process_ip_batch tree rest

/-- Embedding of the single-threaded fallback loop of
`process_single_country` (lines 668-687), which repeats the classifier
logic inline over the full input list. -/
def fallbackLoop (tree : List IPNetwork) : List PyStr → List PyStr
  | [] => []
  | raw :: rest =>
    if (trimChars raw).isEmpty then fallbackLoop tree rest
    else
      match entryKey (trimChars raw) with
      | none => fallbackLoop tree rest
      | some k =>
        if inTree tree k then trimChars raw :: fallbackLoop tree rest
        else fallbackLoop tree rest

/-- Contiguous chunks of a given size (fuel-indexed; fuel is the length). -/
def chunkGo (bs : Nat) : Nat → List α → List (List α)
  | 0, _ => []
  | _, [] => []
  | fuel + 1, x :: rest => ((x :: rest).take bs) :: chunkGo bs fuel ((x :: rest).drop bs)

/-- Embedding of the batch-splitting loop of `process_single_country`
(lines 634-639): slices `l[start : start + batch_size]` for start in
`range(0, len(l), batch_size)`. -/
def makeBatches (batch_size : Nat) (l : List α) : List (List α) :=
  chunkGo batch_size l.length l

/-- Batch size computed at lines 629-632: `max(1, total // (workers * 4))`. -/
def batchSizeFor (optimal_workers total : Nat) : Nat :=
  max 1 (total / (optimal_workers * 4))

/-- Embedding of the classification section of `process_single_country`
(lines 629-687).  `failAfter = none` models a parallel attempt that
completes: the per-batch results are concatenated in submission order.
`failAfter = some k` models a parallel attempt that raises after exactly k
batch results were already consumed into `filtered_ips` (for example the
pool breaking mid-run; k = 0 covers a pool that fails at startup): the
code keeps those k results and then appends the entire sequential fallback
result to the same list, since `filtered_ips` is not reset in the handler.
Every worker builds its tree from the same `optimized_cidrs`, and so does
the fallback, so a single tree value stands for all replicas. -/
def process_single_country_filtered (optimized_cidrs input_ip_list : List PyStr)
    (optimal_workers : Nat) (failAfter : Option Nat) : List PyStr :=
  let tree := _init_worker optimized_cidrs
  let batches := makeBatches (batchSizeFor optimal_workers input_ip_list.length) input_ip_list
  match failAfter with
  | none => (batches.map (_process_ip_batch tree)).flatten
  | some k => ((batches.take k).map (_process_ip_batch tree)).flatten ++ fallbackLoop tree input_ip_list

/-- Embedding of the combined-file stage of `filter_multi_country_ips`
(lines 816-856): accumulate every country's matched entries into a set and
write them out sorted.  `List.dedup` plays the set; the sort is the
lexicographic order on strings that Python `sorted` uses. -/
def combined_sorted (results : List (List PyStr)) : List PyStr :=
  List.insertionSort (· ≤ ·) results.flatten.dedup

/-- Embedding of the NUM_WORKERS override (lines 78-79): an absent variable
gives no override, a present one is clamped below to 1. -/
def NUM_WORKERS_OVERRIDE (num_workers_env : Option Int) : Option Nat :=
  num_workers_env.map (fun v => max 1 v.toNat)

/-- Embedding of line 806: `min(NUM_WORKERS_OVERRIDE or system_cpu_count, 4)`. -/
def optimal_workers (override : Option Nat) (system_cpu_count : Nat) : Nat :=
  min (override.getD system_cpu_count) 4

/-- Worker count as the specification words it, for comparison with the
code: "min(explicit override if provided, available parallelism) capped at
a small constant such as 4". -/
def specWorkerCount (override : Option Nat) (system_cpu_count : Nat) : Nat :=
  min (min (override.getD system_cpu_count) system_cpu_count) 4

/-- Validity of a parsed IPv4 network: CIDR length at most 32, host bits
clear, and the whole block inside the 32-bit address space. -/
def IPNetwork.Valid (n : IPNetwork) : Prop :=
  n.plen ≤ 32 ∧ n.addr % blockSize n.plen = 0 ∧ n.addr + blockSize n.plen ≤ 2 ^ 32

/-- Whether an address lies in an inclusive range. -/
def inRange (r : Nat × Nat) (a : Nat) : Bool := decide (r.1 ≤ a) && decide (a ≤ r.2)

/-- Whether an address lies in the union of a list of inclusive ranges. -/
def covers (rs : List (Nat × Nat)) (a : Nat) : Bool := rs.any (fun r => inRange r a)

/-- The ranges covered by the CIDR decomposition of a range. -/
def decompRanges (r : Nat × Nat) : List (Nat × Nat) :=
  (rangeToCidrs r.1 r.2).map IPNetwork.toRange

/-- The list is an ordered exact partition of the inclusive interval
[lo, hi] into consecutive subintervals. -/
inductive IsPartition : Nat → Nat → List (Nat × Nat) → Prop
  | nil : ∀ lo hi, hi < lo → IsPartition lo hi []
  | cons : ∀ lo hi m rs, lo ≤ m → m ≤ hi → IsPartition (m + 1) hi rs →
      IsPartition lo hi ((lo, m) :: rs)

/-! Helper lemmas: bounded search, block sizing. -/

theorem largestK_le (p : Nat → Bool) : ∀ n, largestK p n ≤ n
  | 0 => le_refl 0
  | n + 1 => by
    unfold largestK
    split
    · exact le_refl _
    · exact le_trans (largestK_le p n) (Nat.le_succ n)

theorem largestK_prop (p : Nat → Bool) (h0 : p 0 = true) : ∀ n, p (largestK p n) = true
  | 0 => h0
  | n + 1 => by
    unfold largestK
    split
    · assumption
    · exact largestK_prop p h0 n

theorem blockLog_le (lo hi : Nat) : blockLog lo hi ≤ 32 :=
  le_trans (min_le_left _ _) (largestK_le _ 32)

theorem blockLog_align (lo hi : Nat) : lo % 2 ^ blockLog lo hi = 0 := by
  have htz := largestK_prop (fun k => lo % 2 ^ k == 0) (by simp [Nat.mod_one]) 32
  have hk : blockLog lo hi ≤ largestK (fun k => lo % 2 ^ k == 0) 32 := min_le_left _ _
  simp only [beq_iff_eq] at htz
  have hdvd : 2 ^ blockLog lo hi ∣ lo :=
    dvd_trans (pow_dvd_pow 2 hk) (Nat.dvd_of_mod_eq_zero htz)
  omega

theorem blockLog_span (lo hi : Nat) (h : lo ≤ hi) : 2 ^ blockLog lo hi ≤ hi + 1 - lo := by
  have h0 : (fun k => decide (2 ^ k ≤ hi + 1 - lo)) 0 = true := by
    simp only [pow_zero, decide_eq_true_eq]
    omega
  have hp := largestK_prop (fun k => decide (2 ^ k ≤ hi + 1 - lo)) h0 32
  have hk : blockLog lo hi ≤ largestK (fun k => decide (2 ^ k ≤ hi + 1 - lo)) 32 :=
    min_le_right _ _
  simp only [decide_eq_true_eq] at hp
  calc 2 ^ blockLog lo hi ≤ 2 ^ largestK (fun k => decide (2 ^ k ≤ hi + 1 - lo)) 32 :=
        Nat.pow_le_pow_right (by omega) hk
    _ ≤ hi + 1 - lo := hp

/-! Helper lemmas: decimal rendering and parsing round trips. -/

theorem octet_roundtrip : ∀ i : Fin 256, parseOctet (octetStr i.val) = some i.val := by decide

theorem octetStr_digits : ∀ i : Fin 256, (octetStr i.val).all Char.isDigit = true := by decide

theorem plen_roundtrip : ∀ i : Fin 33, parsePlen (octetStr i.val) = some i.val := by decide

theorem parseOctet_octetStr (n : Nat) (h : n ≤ 255) : parseOctet (octetStr n) = some n :=
  octet_roundtrip ⟨n, by omega⟩

theorem octetStr_mem_digit (n : Nat) (hn : n ≤ 255) (c : Char) (hc : c ∈ octetStr n) :
    c.isDigit = true := by
  have h := octetStr_digits ⟨n, by omega⟩
  rw [List.all_eq_true] at h
  exact h c hc

theorem digit_ne (c : Char) (h : c.isDigit = true) : c ≠ '.' ∧ c ≠ '/' := by
  constructor <;> intro he <;> subst he <;> exact absurd h (by decide)

theorem digit_not_space (c : Char) (h : c.isDigit = true) : isSpaceChar c = false := by
  cases hsp : isSpaceChar c
  · rfl
  · exfalso
    simp only [isSpaceChar, Bool.or_eq_true, decide_eq_true_eq] at hsp
    rcases hsp with ((((h1 | h1) | h1) | h1) | h1) | h1 <;> subst h1 <;> exact absurd h (by decide)

theorem splitOnChar_ne_nil (sep : Char) (s : PyStr) : splitOnChar sep s ≠ [] := by
  induction s with
  | nil => simp [splitOnChar]
  | cons c rest ih =>
    simp only [splitOnChar]
    split <;> simp

theorem splitOnChar_no_sep (sep : Char) (s : PyStr) (h : ∀ c ∈ s, c ≠ sep) :
    splitOnChar sep s = [s] := by
  induction s with
  | nil => rfl
  | cons c rest ih =>
    have hr := ih (fun x hx => h x (List.mem_cons_of_mem c hx))
    have hc : c ≠ sep := h c (List.mem_cons_self c rest)
    simp only [splitOnChar]
    rw [hr]
    simp [hc]

theorem splitOnChar_append (sep : Char) (a b : PyStr) (h : ∀ c ∈ a, c ≠ sep) :
    splitOnChar sep (a ++ sep :: b) = a :: splitOnChar sep b := by
  induction a with
  | nil =>
    show splitOnChar sep (sep :: b) = [] :: splitOnChar sep b
    simp only [splitOnChar]
    simp
  | cons c a' ih =>
    have hr := ih (fun x hx => h x (List.mem_cons_of_mem c hx))
    have hc : c ≠ sep := h c (List.mem_cons_self c a')
    show splitOnChar sep (c :: (a' ++ sep :: b)) = (c :: a') :: splitOnChar sep b
    simp only [splitOnChar]
    rw [hr]
    simp [hc]

theorem parseOctet_le (s : PyStr) (v : Nat) (h : parseOctet s = some v) : v ≤ 255 := by
  unfold parseOctet at h
  split at h
  · exact absurd h (by simp)
  split at h
  · exact absurd h (by simp)
  split at h
  · exact absurd h (by simp)
  dsimp only at h
  split at h
  · cases h
    assumption
  · exact absurd h (by simp)

theorem parsePlen_le (s : PyStr) (v : Nat) (h : parsePlen s = some v) : v ≤ 32 := by
  unfold parsePlen at h
  split at h
  · exact absurd h (by simp)
  split at h
  · exact absurd h (by simp)
  dsimp only at h
  split at h
  · cases h
    assumption
  · exact absurd h (by simp)

theorem parseIPv4_lt (s : PyStr) (v : Nat) (h : parseIPv4 s = some v) : v < 2 ^ 32 := by
  unfold parseIPv4 at h
  split at h
  case h_1 a b c d heq =>
    split at h
    case h_1 va vb vc vd ha hb hc hd =>
      cases h
      have := parseOctet_le a va ha
      have := parseOctet_le b vb hb
      have := parseOctet_le c vc hc
      have := parseOctet_le d vd hd
      simp only [Nat.pow_succ, Nat.pow_zero]
      omega
    case h_2 => exact absurd h (by simp)
  case h_2 => exact absurd h (by simp)

theorem ipStr_mem (a : Nat) (c : Char) (hc : c ∈ ipStr a) : c.isDigit = true ∨ c = '.' := by
  unfold ipStr at hc
  simp only [List.mem_append, List.mem_cons] at hc
  rcases hc with h | h | h | h | h | h | h
  · exact Or.inl (octetStr_mem_digit _ (by omega) c h)
  · exact Or.inr h
  · exact Or.inl (octetStr_mem_digit _ (by omega) c h)
  · exact Or.inr h
  · exact Or.inl (octetStr_mem_digit _ (by omega) c h)
  · exact Or.inr h
  · exact Or.inl (octetStr_mem_digit _ (by omega) c h)

theorem ipStr_roundtrip (a : Nat) (ha : a < 2 ^ 32) : parseIPv4 (ipStr a) = some a := by
  have nodot : ∀ (m : Nat), m ≤ 255 → ∀ c ∈ octetStr m, c ≠ '.' :=
    fun m hm c hc => (digit_ne c (octetStr_mem_digit m hm c hc)).1
  unfold parseIPv4 ipStr
  rw [splitOnChar_append '.' _ _ (nodot _ (by omega)),
      splitOnChar_append '.' _ _ (nodot _ (by omega)),
      splitOnChar_append '.' _ _ (nodot _ (by omega)),
      splitOnChar_no_sep '.' _ (nodot _ (by omega))]
  dsimp only
  rw [parseOctet_octetStr _ (by omega), parseOctet_octetStr _ (by omega),
      parseOctet_octetStr _ (by omega), parseOctet_octetStr _ (by omega)]
  dsimp only
  simp only [Option.some.injEq]
  omega

theorem ipStr_no_slash (a : Nat) : ∀ c ∈ ipStr a, c ≠ '/' := by
  intro c hc he
  rcases ipStr_mem a c hc with h | h
  · exact (digit_ne c h).2 he
  · subst he
    exact absurd h (by decide)

theorem netToString_roundtrip (n : IPNetwork) (hv : n.Valid) :
    ip_network true (netToString n) = some n := by
  obtain ⟨hp, hm, hb⟩ := hv
  have hbs : 0 < blockSize n.plen := Nat.pos_pow_of_pos _ (by omega)
  have ha : n.addr < 2 ^ 32 := by omega
  unfold ip_network netToString
  rw [splitOnChar_append '/' _ _ (ipStr_no_slash n.addr),
      splitOnChar_no_sep '/' _ (fun c hc he =>
        (digit_ne c (octetStr_mem_digit _ (by omega) c hc)).2 he)]
  dsimp only
  rw [ipStr_roundtrip n.addr ha]
  have hpl : parsePlen (octetStr n.plen) = some n.plen := plen_roundtrip ⟨n.plen, by omega⟩
  rw [hpl]
  dsimp only
  simp [hm]

theorem trimChars_eq_self (s : PyStr) (h : ∀ c ∈ s, isSpaceChar c = false) :
    trimChars s = s := by
  have hd : ∀ t : PyStr, (∀ c ∈ t, isSpaceChar c = false) → t.dropWhile isSpaceChar = t := by
    intro t ht
    cases t with
    | nil => rfl
    | cons c rest =>
      rw [List.dropWhile_cons_of_neg]
      simp [ht c (List.mem_cons_self c rest)]
  unfold trimChars
  rw [hd s h, hd s.reverse (fun c hc => h c (List.mem_reverse.mp hc)), List.reverse_reverse]

theorem netToString_no_space (n : IPNetwork) (hp : n.plen ≤ 32) :
    ∀ c ∈ netToString n, isSpaceChar c = false := by
  intro c hc
  unfold netToString at hc
  simp only [List.mem_append, List.mem_cons] at hc
  rcases hc with h | h | h
  · rcases ipStr_mem n.addr c h with hdig | hdot
    · exact digit_not_space c hdig
    · subst hdot
      decide
  · subst h
    decide
  · exact digit_not_space c (octetStr_mem_digit _ (by omega) c h)

theorem ip_network_valid (b : Bool) (s : PyStr) (n : IPNetwork)
    (h : ip_network b s = some n) : n.Valid := by
  unfold ip_network at h
  split at h
  case h_1 a heq =>
    cases hp : parseIPv4 a with
    | none => rw [hp] at h; exact absurd h (by simp)
    | some v =>
      rw [hp] at h
      cases h
      have hv := parseIPv4_lt a v hp
      refine ⟨le_refl 32, ?_, ?_⟩ <;> simp [blockSize] <;> omega
  case h_2 a p heq =>
    split at h
    case h_1 va vp ha hp =>
      have hva := parseIPv4_lt a va ha
      have hvp := parsePlen_le p vp hp
      have hbs : 0 < blockSize vp := Nat.pos_pow_of_pos _ (by omega)
      have hdvd : blockSize vp ∣ 2 ^ 32 := by
        unfold blockSize
        exact pow_dvd_pow 2 (by omega)
      have hmask : ∀ m : IPNetwork, m = ⟨va - va % blockSize vp, vp⟩ → m.Valid := by
        intro m hm
        subst hm
        refine ⟨hvp, ?_, ?_⟩
        · show (va - va % blockSize vp) % blockSize vp = 0
          have := Nat.mod_le va (blockSize vp)
          have h2 : va - va % blockSize vp = blockSize vp * (va / blockSize vp) := by
            have := Nat.div_add_mod va (blockSize vp)
            omega
          rw [h2]
          exact Nat.mul_mod_right _ _
        · show va - va % blockSize vp + blockSize vp ≤ 2 ^ 32
          have h2 : va - va % blockSize vp = blockSize vp * (va / blockSize vp) := by
            have := Nat.div_add_mod va (blockSize vp)
            omega
          have hlt : va / blockSize vp < 2 ^ 32 / blockSize vp :=
            Nat.div_lt_div_of_lt_of_dvd hdvd hva
          have : blockSize vp * (va / blockSize vp + 1) ≤ blockSize vp * (2 ^ 32 / blockSize vp) :=
            Nat.mul_le_mul_left _ (by omega)
          rw [Nat.mul_div_cancel' hdvd] at this
          have hmul : blockSize vp * (va / blockSize vp + 1) =
              blockSize vp * (va / blockSize vp) + blockSize vp := by ring
          omega
      split at h
      · exact absurd h (by simp)
      · cases h
        exact hmask _ rfl
    case h_2 => exact absurd h (by simp)
  case h_3 => exact absurd h (by simp)

theorem valid_lastAddr_lt (n : IPNetwork) (hv : n.Valid) : n.lastAddr < 2 ^ 32 := by
  obtain ⟨hp, hm, hb⟩ := hv
  have hbs : 0 < blockSize n.plen := Nat.pos_pow_of_pos _ (by omega)
  unfold IPNetwork.lastAddr
  omega

theorem valid_addr_le_lastAddr (n : IPNetwork) (hv : n.Valid) : n.addr ≤ n.lastAddr := by
  obtain ⟨hp, hm, hb⟩ := hv
  have hbs : 0 < blockSize n.plen := Nat.pos_pow_of_pos _ (by omega)
  unfold IPNetwork.lastAddr
  omega

/-! Helper lemmas: range sorting and merging. -/

theorem insRange_mem (r : Nat × Nat) (l : List (Nat × Nat)) (x : Nat × Nat) :
    x ∈ insRange r l ↔ x = r ∨ x ∈ l := by
  induction l with
  | nil => simp [insRange]
  | cons s rest ih =>
    unfold insRange
    split
    · simp
    · simp only [List.mem_cons, ih]
      tauto

theorem sortRanges_mem (l : List (Nat × Nat)) (x : Nat × Nat) :
    x ∈ sortRanges l ↔ x ∈ l := by
  induction l with
  | nil => simp [sortRanges]
  | cons s rest ih =>
    show x ∈ insRange s (sortRanges rest) ↔ _
    rw [insRange_mem]
    simp only [List.mem_cons, ih]

theorem insRange_covers (r : Nat × Nat) (l : List (Nat × Nat)) (a : Nat) :
    covers (insRange r l) a = (inRange r a || covers l a) := by
  induction l with
  | nil => simp [insRange, covers]
  | cons s rest ih =>
    unfold insRange
    split
    · simp [covers]
    · simp only [covers, List.any_cons] at ih ⊢
      rw [ih]
      rw [Bool.eq_iff_iff]
      simp only [Bool.or_eq_true]
      tauto

theorem sortRanges_covers (l : List (Nat × Nat)) (a : Nat) :
    covers (sortRanges l) a = covers l a := by
  induction l with
  | nil => rfl
  | cons s rest ih =>
    show covers (insRange s (sortRanges rest)) a = _
    rw [insRange_covers, ih]
    simp [covers]

theorem insRange_sorted (r : Nat × Nat) (l : List (Nat × Nat))
    (h : l.Pairwise (fun x y : Nat × Nat => x.1 ≤ y.1)) :
    (insRange r l).Pairwise (fun x y : Nat × Nat => x.1 ≤ y.1) := by
  induction l with
  | nil => simp [insRange]
  | cons s rest ih =>
    unfold insRange
    split
    case isTrue hle =>
      refine List.Pairwise.cons ?_ h
      intro x hx
      rcases List.mem_cons.mp hx with he | hx
      · subst he
        omega
      · have := (List.pairwise_cons.mp h).1 x hx
        omega
    case isFalse hgt =>
      have hrest := (List.pairwise_cons.mp h).2
      refine List.Pairwise.cons ?_ (ih hrest)
      intro x hx
      rcases (insRange_mem r rest x).mp hx with he | hx
      · subst he
        omega
      · exact (List.pairwise_cons.mp h).1 x hx

theorem sortRanges_sorted (l : List (Nat × Nat)) :
    (sortRanges l).Pairwise (fun x y : Nat × Nat => x.1 ≤ y.1) := by
  induction l with
  | nil => exact List.Pairwise.nil
  | cons s rest ih => exact insRange_sorted s (sortRanges rest) ih

theorem inRange_merge (r s : Nat × Nat) (a : Nat) (h1 : r.1 ≤ s.1) (h2 : s.1 ≤ r.2 + 1)
    (_h3 : r.1 ≤ r.2) (_h4 : s.1 ≤ s.2) :
    inRange (r.1, max r.2 s.2) a = (inRange r a || inRange s a) := by
  rw [Bool.eq_iff_iff]
  simp only [inRange, Bool.and_eq_true, Bool.or_eq_true, decide_eq_true_eq]
  omega

theorem mergeInto_covers (l : List (Nat × Nat)) :
    ∀ r : Nat × Nat, l.Pairwise (fun x y : Nat × Nat => x.1 ≤ y.1) →
    (∀ t ∈ l, r.1 ≤ t.1) → (∀ t ∈ l, t.1 ≤ t.2) → r.1 ≤ r.2 →
    ∀ a, covers (mergeInto r l) a = (inRange r a || covers l a) := by
  induction l with
  | nil =>
    intro r _ _ _ _ a
    simp [mergeInto, covers]
  | cons s rest ih =>
    intro r hs hlo hwf hr a
    unfold mergeInto
    split
    case isTrue hadj =>
      have hrec := ih (r.1, max r.2 s.2) (List.pairwise_cons.mp hs).2
        (fun t ht => hlo t (List.mem_cons_of_mem s ht))
        (fun t ht => hwf t (List.mem_cons_of_mem s ht))
        (by simp; omega) a
      have hrs : r.1 ≤ s.1 := hlo s (List.mem_cons_self s rest)
      have hsw : s.1 ≤ s.2 := hwf s (List.mem_cons_self s rest)
      rw [hrec, inRange_merge r s a hrs hadj hr hsw]
      simp [covers, Bool.or_assoc]
    case isFalse hgap =>
      have hrec := ih s (List.pairwise_cons.mp hs).2
        (fun t ht => (List.pairwise_cons.mp hs).1 t ht)
        (fun t ht => hwf t (List.mem_cons_of_mem s ht))
        (hwf s (List.mem_cons_self s rest)) a
      simp only [covers, List.any_cons] at hrec ⊢
      rw [hrec]

theorem mergeInto_inv (l : List (Nat × Nat)) :
    ∀ r : Nat × Nat, l.Pairwise (fun x y : Nat × Nat => x.1 ≤ y.1) →
    (∀ t ∈ l, t.1 ≤ t.2) → r.1 ≤ r.2 →
    (mergeInto r l).Pairwise (fun x y : Nat × Nat => x.2 + 1 < y.1) ∧
    ∀ x ∈ mergeInto r l, r.1 ≤ x.1 ∧ x.1 ≤ x.2 := by
  induction l with
  | nil =>
    intro r _ _ hr
    constructor
    · simp [mergeInto]
    · intro x hx
      simp [mergeInto] at hx
      subst hx
      exact ⟨le_refl _, hr⟩
  | cons s rest ih =>
    intro r hs hwf hr
    unfold mergeInto
    split
    case isTrue hadj =>
      exact ih (r.1, max r.2 s.2) (List.pairwise_cons.mp hs).2
        (fun t ht => hwf t (List.mem_cons_of_mem s ht))
        (by simp; omega)
    case isFalse hgap =>
      have hrec := ih s (List.pairwise_cons.mp hs).2
        (fun t ht => hwf t (List.mem_cons_of_mem s ht))
        (hwf s (List.mem_cons_self s rest))
      constructor
      · refine List.Pairwise.cons ?_ hrec.1
        intro x hx
        have := (hrec.2 x hx).1
        omega
      · intro x hx
        rcases List.mem_cons.mp hx with he | hx
        · subst he
          exact ⟨le_refl _, hr⟩
        · have h1 := hrec.2 x hx
          have hrs : r.1 ≤ s.1 := by omega
          exact ⟨le_trans hrs h1.1, h1.2⟩

theorem mergeInto_bound (l : List (Nat × Nat)) :
    ∀ (r : Nat × Nat) (B : Nat), (∀ t ∈ l, t.2 < B) → r.2 < B →
    ∀ x ∈ mergeInto r l, x.2 < B := by
  induction l with
  | nil =>
    intro r B _ hrB x hx
    simp [mergeInto] at hx
    subst hx
    exact hrB
  | cons s rest ih =>
    intro r B hB hrB x hx
    unfold mergeInto at hx
    split at hx
    case isTrue hadj =>
      refine ih (r.1, max r.2 s.2) B (fun t ht => hB t (List.mem_cons_of_mem s ht)) ?_ x hx
      have := hB s (List.mem_cons_self s rest)
      simp
      omega
    case isFalse hgap =>
      rcases List.mem_cons.mp hx with he | hx
      · subst he
        exact hrB
      · exact ih s B (fun t ht => hB t (List.mem_cons_of_mem s ht))
          (hB s (List.mem_cons_self s rest)) x hx

theorem mergeSorted_covers (l : List (Nat × Nat))
    (hs : l.Pairwise (fun x y : Nat × Nat => x.1 ≤ y.1))
    (hwf : ∀ t ∈ l, t.1 ≤ t.2) (a : Nat) :
    covers (mergeSorted l) a = covers l a := by
  cases l with
  | nil => rfl
  | cons r rest =>
    show covers (mergeInto r rest) a = _
    rw [mergeInto_covers rest r (List.pairwise_cons.mp hs).2
      (fun t ht => (List.pairwise_cons.mp hs).1 t ht)
      (fun t ht => hwf t (List.mem_cons_of_mem r ht))
      (hwf r (List.mem_cons_self r rest)) a]
    simp [covers]

theorem mergeSorted_inv (l : List (Nat × Nat))
    (hs : l.Pairwise (fun x y : Nat × Nat => x.1 ≤ y.1))
    (hwf : ∀ t ∈ l, t.1 ≤ t.2) :
    (mergeSorted l).Pairwise (fun x y : Nat × Nat => x.2 + 1 < y.1) ∧
    ∀ x ∈ mergeSorted l, x.1 ≤ x.2 := by
  cases l with
  | nil => exact ⟨List.Pairwise.nil, by simp [mergeSorted]⟩
  | cons r rest =>
    have h := mergeInto_inv rest r (List.pairwise_cons.mp hs).2
      (fun t ht => hwf t (List.mem_cons_of_mem r ht))
      (hwf r (List.mem_cons_self r rest))
    exact ⟨h.1, fun x hx => (h.2 x hx).2⟩

theorem mergeSorted_bound (l : List (Nat × Nat)) (B : Nat) (hB : ∀ t ∈ l, t.2 < B) :
    ∀ x ∈ mergeSorted l, x.2 < B := by
  cases l with
  | nil => simp [mergeSorted]
  | cons r rest =>
    exact mergeInto_bound rest r B (fun t ht => hB t (List.mem_cons_of_mem r ht))
      (hB r (List.mem_cons_self r rest))

/-! Helper lemmas: the CIDR decomposition of a range is an exact ordered
partition of that range into aligned blocks. -/

theorem rangeToCidrsGo_partition : ∀ (fuel lo hi : Nat), hi + 1 - lo ≤ fuel →
    IsPartition lo hi ((rangeToCidrsGo fuel lo hi).map IPNetwork.toRange)
  | 0, lo, hi, h => by
    simp only [rangeToCidrsGo, List.map_nil]
    exact IsPartition.nil lo hi (by omega)
  | fuel + 1, lo, hi, h => by
    unfold rangeToCidrsGo
    split
    case isTrue hle =>
      have hk := blockLog_span lo hi hle
      have hpos : 0 < 2 ^ blockLog lo hi := Nat.pos_pow_of_pos _ (by omega)
      have hrec := rangeToCidrsGo_partition fuel (lo + 2 ^ blockLog lo hi) hi (by omega)
      simp only [List.map_cons]
      have hble := blockLog_le lo hi
      have htr : IPNetwork.toRange ⟨lo, 32 - blockLog lo hi⟩ =
          (lo, lo + 2 ^ blockLog lo hi - 1) := by
        unfold IPNetwork.toRange IPNetwork.lastAddr blockSize
        have h32 : 32 - (32 - blockLog lo hi) = blockLog lo hi := by omega
        rw [h32]
      rw [htr]
      refine IsPartition.cons lo hi (lo + 2 ^ blockLog lo hi - 1) _ (by omega) (by omega) ?_
      have hm1 : lo + 2 ^ blockLog lo hi - 1 + 1 = lo + 2 ^ blockLog lo hi := by omega
      rw [hm1]
      exact hrec
    case isFalse hgt =>
      simp only [List.map_nil]
      exact IsPartition.nil lo hi (by omega)

theorem rangeToCidrsGo_valid : ∀ (fuel lo hi : Nat), hi < 2 ^ 32 →
    ∀ n ∈ rangeToCidrsGo fuel lo hi, n.Valid
  | 0, lo, hi, _, n, hn => by simp [rangeToCidrsGo] at hn
  | fuel + 1, lo, hi, hhi, n, hn => by
    unfold rangeToCidrsGo at hn
    split at hn
    case isTrue hle =>
      have hk := blockLog_span lo hi hle
      have hpos : 0 < 2 ^ blockLog lo hi := Nat.pos_pow_of_pos _ (by omega)
      have hble := blockLog_le lo hi
      rcases List.mem_cons.mp hn with he | hn
      · subst he
        refine ⟨show 32 - blockLog lo hi ≤ 32 by omega, ?_, ?_⟩
        · show lo % blockSize (32 - blockLog lo hi) = 0
          unfold blockSize
          have h32 : 32 - (32 - blockLog lo hi) = blockLog lo hi := by omega
          rw [h32]
          exact blockLog_align lo hi
        · show lo + blockSize (32 - blockLog lo hi) ≤ 2 ^ 32
          unfold blockSize
          have h32 : 32 - (32 - blockLog lo hi) = blockLog lo hi := by omega
          rw [h32]
          omega
      · exact rangeToCidrsGo_valid fuel _ hi hhi n hn
    case isFalse hgt => simp at hn

theorem decompRanges_partition (r : Nat × Nat) : IsPartition r.1 r.2 (decompRanges r) :=
  rangeToCidrsGo_partition _ _ _ (le_refl _)

theorem partition_bounds (lo hi : Nat) (rs : List (Nat × Nat)) (h : IsPartition lo hi rs) :
    rs.Pairwise (fun x y : Nat × Nat => x.2 < y.1) ∧
    ∀ x ∈ rs, lo ≤ x.1 ∧ x.1 ≤ x.2 ∧ x.2 ≤ hi := by
  induction h with
  | nil lo hi h => simp
  | cons lo hi m rs h1 h2 h3 ih =>
    constructor
    · refine List.Pairwise.cons ?_ ih.1
      intro y hy
      have := (ih.2 y hy).1
      show m < y.1
      omega
    · intro x hx
      rcases List.mem_cons.mp hx with he | hx
      · subst he
        exact ⟨le_refl _, h1, h2⟩
      · have := ih.2 x hx
        refine ⟨by omega, this.2.1, this.2.2⟩

theorem partition_covers (lo hi : Nat) (rs : List (Nat × Nat)) (h : IsPartition lo hi rs)
    (a : Nat) : covers rs a = (decide (lo ≤ a) && decide (a ≤ hi)) := by
  induction h with
  | nil lo hi h =>
    have hz : (decide (lo ≤ a) && decide (a ≤ hi)) = false := by
      rcases Nat.lt_or_ge a lo with hc | hc
      · have hd : decide (lo ≤ a) = false := by simp; omega
        rw [hd, Bool.false_and]
      · have hd : decide (a ≤ hi) = false := by simp; omega
        rw [hd, Bool.and_false]
    rw [hz]
    rfl
  | cons lo hi m rs h1 h2 h3 ih =>
    simp only [covers, List.any_cons] at ih ⊢
    rw [ih, Bool.eq_iff_iff]
    simp only [inRange, Bool.or_eq_true, Bool.and_eq_true, decide_eq_true_eq]
    omega

theorem mergeInto_absorb (lo hi : Nat) (rs : List (Nat × Nat)) (h : IsPartition lo hi rs) :
    ∀ (a b : Nat) (rest : List (Nat × Nat)), b + 1 = lo → b ≤ hi →
    mergeInto (a, b) (rs ++ rest) = mergeInto (a, hi) rest := by
  induction h with
  | nil lo hi hlt =>
    intro a b rest hb hbh
    have : b = hi := by omega
    subst this
    simp
  | cons lo hi m rs h1 h2 h3 ih =>
    intro a b rest hb hbh
    show (if (lo, m).1 ≤ (a, b).2 + 1
        then mergeInto ((a, b).1, max (a, b).2 (lo, m).2) (rs ++ rest)
        else (a, b) :: mergeInto (lo, m) (rs ++ rest)) = mergeInto (a, hi) rest
    rw [if_pos (show (lo, m).1 ≤ (a, b).2 + 1 by simp; omega)]
    have hmax : max (a, b).2 (lo, m).2 = m := by simp; omega
    rw [hmax]
    exact ih a m rest rfl (by omega)

theorem decompRanges_shape (r : Nat × Nat) (h : r.1 ≤ r.2) :
    ∃ m ds, decompRanges r = (r.1, m) :: ds ∧ r.1 ≤ m ∧ m ≤ r.2 ∧
      IsPartition (m + 1) r.2 ds := by
  obtain ⟨a, b⟩ := r
  simp only at h ⊢
  have hp := decompRanges_partition (a, b)
  simp only at hp
  generalize he : decompRanges (a, b) = L at hp ⊢
  cases hp with
  | nil _ _ hlt => omega
  | cons _ _ m rs h1 h2 h3 => exact ⟨m, rs, rfl, h1, h2, h3⟩

theorem mergeSorted_decomp (R : List (Nat × Nat))
    (hsep : R.Pairwise (fun x y : Nat × Nat => x.2 + 1 < y.1))
    (hwf : ∀ r ∈ R, r.1 ≤ r.2) :
    mergeSorted ((R.map decompRanges).flatten) = R := by
  induction R with
  | nil => rfl
  | cons r R' ih =>
    obtain ⟨m, ds, hshape, hm1, hm2, hpart⟩ :=
      decompRanges_shape r (hwf r (List.mem_cons_self r R'))
    have hflat : ((r :: R').map decompRanges).flatten =
        (r.1, m) :: (ds ++ (R'.map decompRanges).flatten) := by
      simp only [List.map_cons, List.flatten_cons, hshape]
      simp
    rw [hflat]
    show mergeInto (r.1, m) (ds ++ (R'.map decompRanges).flatten) = r :: R'
    rw [mergeInto_absorb (m + 1) r.2 ds hpart r.1 m _ rfl hm2]
    have hrec := ih (List.pairwise_cons.mp hsep).2
      (fun t ht => hwf t (List.mem_cons_of_mem r ht))
    cases R' with
    | nil =>
      show [(r.1, r.2)] = [r]
      simp
    | cons r2 R'' =>
      obtain ⟨m2, ds2, hshape2, hn1, hn2, hpart2⟩ :=
        decompRanges_shape r2
          (hwf r2 (List.mem_cons_of_mem r (List.mem_cons_self r2 R'')))
      have hflat2 : ((r2 :: R'').map decompRanges).flatten =
          (r2.1, m2) :: (ds2 ++ (R''.map decompRanges).flatten) := by
        simp only [List.map_cons, List.flatten_cons, hshape2]
        simp
      rw [hflat2]
      have hgap : r.2 + 1 < r2.1 :=
        (List.pairwise_cons.mp hsep).1 r2 (List.mem_cons_self r2 R'')
      show (if (r2.1, m2).1 ≤ (r.1, r.2).2 + 1
          then mergeInto ((r.1, r.2).1, max (r.1, r.2).2 (r2.1, m2).2)
            (ds2 ++ (R''.map decompRanges).flatten)
          else (r.1, r.2) :: mergeInto (r2.1, m2) (ds2 ++ (R''.map decompRanges).flatten)) =
        r :: r2 :: R''
      rw [if_neg (by simp; omega)]
      have heta : (r.1, r.2) = r := rfl
      rw [heta]
      have hms : mergeInto (r2.1, m2) (ds2 ++ (R''.map decompRanges).flatten) =
          mergeSorted (((r2 :: R'').map decompRanges).flatten) := by
        rw [hflat2]
        rfl
      rw [hms, hrec]

/-! Helper lemmas: facts about the collapsed network list. -/

theorem inTree_covers (nets : List IPNetwork) (a : Nat) :
    inTree nets a = covers (nets.map IPNetwork.toRange) a := by
  induction nets with
  | nil => rfl
  | cons n rest ih =>
    simp only [inTree, covers, List.map_cons, List.any_cons] at ih ⊢
    rw [ih]
    rfl

theorem inTree_append (l1 l2 : List IPNetwork) (a : Nat) :
    inTree (l1 ++ l2) a = (inTree l1 a || inTree l2 a) := by
  unfold inTree
  exact List.any_append

theorem covers_decomp (r : Nat × Nat) (_h : r.1 ≤ r.2) (a : Nat) :
    inTree (rangeToCidrs r.1 r.2) a = inRange r a := by
  rw [inTree_covers]
  have := partition_covers r.1 r.2 (decompRanges r) (decompRanges_partition r) a
  exact this

theorem inTree_flatten_decomp (R : List (Nat × Nat)) (hwf : ∀ r ∈ R, r.1 ≤ r.2) (a : Nat) :
    inTree ((R.map (fun r => rangeToCidrs r.1 r.2)).flatten) a = covers R a := by
  induction R with
  | nil => rfl
  | cons r R' ih =>
    simp only [List.map_cons, List.flatten_cons]
    rw [inTree_append, covers_decomp r (hwf r (List.mem_cons_self r R')) a,
      ih (fun t ht => hwf t (List.mem_cons_of_mem r ht))]
    rfl

theorem sortRanges_wf (nets : List IPNetwork) (hv : ∀ n ∈ nets, n.Valid) :
    ∀ t ∈ sortRanges (nets.map IPNetwork.toRange), t.1 ≤ t.2 := by
  intro t ht
  rw [sortRanges_mem] at ht
  obtain ⟨n, hn, rfl⟩ := List.mem_map.mp ht
  exact valid_addr_le_lastAddr n (hv n hn)

theorem mergedRanges_facts (nets : List IPNetwork) (hv : ∀ n ∈ nets, n.Valid) :
    (mergeSorted (sortRanges (nets.map IPNetwork.toRange))).Pairwise
      (fun x y : Nat × Nat => x.2 + 1 < y.1) ∧
    (∀ x ∈ mergeSorted (sortRanges (nets.map IPNetwork.toRange)), x.1 ≤ x.2) ∧
    (∀ x ∈ mergeSorted (sortRanges (nets.map IPNetwork.toRange)), x.2 < 2 ^ 32) := by
  have hinv := mergeSorted_inv (sortRanges (nets.map IPNetwork.toRange))
    (sortRanges_sorted _) (sortRanges_wf nets hv)
  refine ⟨hinv.1, hinv.2, ?_⟩
  refine mergeSorted_bound _ (2 ^ 32) ?_
  intro t ht
  rw [sortRanges_mem] at ht
  obtain ⟨n, hn, rfl⟩ := List.mem_map.mp ht
  exact valid_lastAddr_lt n (hv n hn)

theorem collapse_addresses_valid (nets : List IPNetwork) (hv : ∀ n ∈ nets, n.Valid) :
    ∀ n ∈ collapse_addresses nets, n.Valid := by
  intro n hn
  unfold collapse_addresses at hn
  rw [List.mem_flatten] at hn
  obtain ⟨l, hl, hnl⟩ := hn
  obtain ⟨r, hr, rfl⟩ := List.mem_map.mp hl
  exact rangeToCidrsGo_valid _ _ _ ((mergedRanges_facts nets hv).2.2 r hr) n hnl

theorem collapse_addresses_inTree (nets : List IPNetwork) (hv : ∀ n ∈ nets, n.Valid)
    (a : Nat) : inTree (collapse_addresses nets) a = inTree nets a := by
  have hfacts := mergedRanges_facts nets hv
  unfold collapse_addresses
  rw [inTree_flatten_decomp _ hfacts.2.1 a]
  rw [mergeSorted_covers _ (sortRanges_sorted _) (sortRanges_wf nets hv) a]
  rw [sortRanges_covers, ← inTree_covers]

theorem map_toRange_flatten (R : List (Nat × Nat)) :
    ((R.map (fun r => rangeToCidrs r.1 r.2)).flatten).map IPNetwork.toRange =
    (R.map decompRanges).flatten := by
  rw [List.map_flatten, List.map_map]
  rfl

theorem insRange_of_le (r : Nat × Nat) (l : List (Nat × Nat))
    (h : ∀ s ∈ l, r.1 ≤ s.1) : insRange r l = r :: l := by
  cases l with
  | nil => rfl
  | cons s rest =>
    unfold insRange
    rw [if_pos (h s (List.mem_cons_self s rest))]

theorem sortRanges_of_sorted (l : List (Nat × Nat))
    (h : l.Pairwise (fun x y : Nat × Nat => x.1 ≤ y.1)) : sortRanges l = l := by
  induction l with
  | nil => rfl
  | cons x rest ih =>
    show insRange x (sortRanges rest) = x :: rest
    rw [ih (List.pairwise_cons.mp h).2]
    exact insRange_of_le x rest (List.pairwise_cons.mp h).1

theorem flatten_decomp_pairwise (R : List (Nat × Nat))
    (hsep : R.Pairwise (fun x y : Nat × Nat => x.2 + 1 < y.1))
    (_hwf : ∀ r ∈ R, r.1 ≤ r.2) :
    ((R.map decompRanges).flatten).Pairwise (fun x y : Nat × Nat => x.2 < y.1) ∧
    ∀ x ∈ (R.map decompRanges).flatten, x.1 ≤ x.2 := by
  constructor
  · rw [List.pairwise_flatten]
    constructor
    · intro l hl
      obtain ⟨r, hr, rfl⟩ := List.mem_map.mp hl
      exact (partition_bounds _ _ _ (decompRanges_partition r)).1
    · rw [List.pairwise_map]
      refine hsep.imp_of_mem ?_
      intro r s hr hs hsep1 x hx y hy
      have hxb := (partition_bounds _ _ _ (decompRanges_partition r)).2 x hx
      have hyb := (partition_bounds _ _ _ (decompRanges_partition s)).2 y hy
      omega
  · intro x hx
    rw [List.mem_flatten] at hx
    obtain ⟨l, hl, hxl⟩ := hx
    obtain ⟨r, hr, rfl⟩ := List.mem_map.mp hl
    exact ((partition_bounds _ _ _ (decompRanges_partition r)).2 x hxl).2.1

theorem collapse_addresses_decomp_fixed (R : List (Nat × Nat))
    (hsep : R.Pairwise (fun x y : Nat × Nat => x.2 + 1 < y.1))
    (hwf : ∀ r ∈ R, r.1 ≤ r.2) :
    collapse_addresses ((R.map (fun r => rangeToCidrs r.1 r.2)).flatten) =
    (R.map (fun r => rangeToCidrs r.1 r.2)).flatten := by
  have hpw := flatten_decomp_pairwise R hsep hwf
  unfold collapse_addresses
  rw [map_toRange_flatten]
  rw [sortRanges_of_sorted _ (hpw.1.imp_of_mem ?_)]
  · rw [mergeSorted_decomp R hsep hwf]
  · intro x y hx hy hlt
    have := hpw.2 x hx
    omega

theorem collapse_addresses_idem (nets : List IPNetwork) (hv : ∀ n ∈ nets, n.Valid) :
    collapse_addresses (collapse_addresses nets) = collapse_addresses nets := by
  have hfacts := mergedRanges_facts nets hv
  exact collapse_addresses_decomp_fixed _ hfacts.1 hfacts.2.1

theorem collapse_addresses_ranges (nets : List IPNetwork) (hv : ∀ n ∈ nets, n.Valid) :
    ((collapse_addresses nets).map IPNetwork.toRange).Pairwise
      (fun x y : Nat × Nat => x.2 < y.1) ∧
    ∀ x ∈ (collapse_addresses nets).map IPNetwork.toRange, x.1 ≤ x.2 := by
  have hfacts := mergedRanges_facts nets hv
  unfold collapse_addresses
  rw [map_toRange_flatten]
  exact flatten_decomp_pairwise _ hfacts.1 hfacts.2.1

theorem filterMap_parse_output (N : List IPNetwork) (hv : ∀ n ∈ N, n.Valid) :
    (N.map netToString).filterMap (fun s => ip_network true s) = N := by
  induction N with
  | nil => rfl
  | cons n rest ih =>
    simp only [List.map_cons, List.filterMap_cons]
    rw [netToString_roundtrip n (hv n (List.mem_cons_self n rest))]
    rw [ih (fun t ht => hv t (List.mem_cons_of_mem n ht))]

theorem filterMap_parse_trim (N : List IPNetwork) (hv : ∀ n ∈ N, n.Valid) :
    (N.map netToString).filterMap (fun s => ip_network true (trimChars s)) = N := by
  induction N with
  | nil => rfl
  | cons n rest ih =>
    simp only [List.map_cons, List.filterMap_cons]
    rw [trimChars_eq_self _ (netToString_no_space n (hv n (List.mem_cons_self n rest)).1)]
    rw [netToString_roundtrip n (hv n (List.mem_cons_self n rest))]
    rw [ih (fun t ht => hv t (List.mem_cons_of_mem n ht))]

theorem parsed_input_valid (strs : List PyStr) :
    ∀ n ∈ strs.filterMap (fun s => ip_network true (trimChars s)), n.Valid := by
  intro n hn
  obtain ⟨s, _, hp⟩ := List.mem_filterMap.mp hn
  exact ip_network_valid true (trimChars s) n hp

/-! Claim theorems. -/

/-- C5: the Network Optimizer is idempotent — for every input sequence of
CIDR strings, applying `collapse_networks` to its own output yields that
same output (the output is a fixed point). -/
theorem c5_optimizer_idempotent (strs : List PyStr) :
    collapse_networks (collapse_networks strs) = collapse_networks strs := by
  have hv := parsed_input_valid strs
  have hva := collapse_addresses_valid _ hv
  show (collapse_addresses ((collapse_networks strs).filterMap
      (fun s => ip_network true (trimChars s)))).map netToString = collapse_networks strs
  have hx : (collapse_networks strs).filterMap (fun s => ip_network true (trimChars s)) =
      collapse_addresses (strs.filterMap (fun s => ip_network true (trimChars s))) :=
    filterMap_parse_trim _ hva
  rw [hx, collapse_addresses_idem _ hv]
  rfl

/-- C6: the Network Optimizer preserves coverage — an address is inside
some network of the optimizer's output exactly when it is inside some
syntactically-valid input network; stated both as an equality of the
membership test and as an equivalence of existentials. -/
theorem c6_optimizer_coverage (strs : List PyStr) (a : Nat) :
    inTree ((collapse_networks strs).filterMap (fun s => ip_network true s)) a =
      inTree (strs.filterMap (fun s => ip_network true (trimChars s))) a ∧
    ((∃ n ∈ strs.filterMap (fun s => ip_network true (trimChars s)), n.containsAddr a = true) ↔
      ∃ n ∈ (collapse_networks strs).filterMap (fun s => ip_network true s),
        n.containsAddr a = true) := by
  have hv := parsed_input_valid strs
  have hx : (collapse_networks strs).filterMap (fun s => ip_network true s) =
      collapse_addresses (strs.filterMap (fun s => ip_network true (trimChars s))) :=
    filterMap_parse_output _ (collapse_addresses_valid _ hv)
  have hb : inTree ((collapse_networks strs).filterMap (fun s => ip_network true s)) a =
      inTree (strs.filterMap (fun s => ip_network true (trimChars s))) a := by
    rw [hx, collapse_addresses_inTree _ hv]
  refine ⟨hb, ?_⟩
  unfold inTree at hb
  rw [← List.any_eq_true, ← List.any_eq_true, hb]

/-- C7 counterexample: an input of three consecutive /32 networks collapses
to a /31 block followed by a /32 block whose ranges are adjacent — the start
of the second output range is the successor of the end of the first — so the
claim that no output range starts right after another ends is false. -/
theorem c7_counterexample_adjacent_output :
    collapse_networks ["10.0.0.0/32".toList, "10.0.0.1/32".toList, "10.0.0.2/32".toList] =
      ["10.0.0.0/31".toList, "10.0.0.2/32".toList] ∧
    (∃ r ∈ ((collapse_networks ["10.0.0.0/32".toList, "10.0.0.1/32".toList,
        "10.0.0.2/32".toList]).filterMap (fun s => ip_network true s)).map IPNetwork.toRange,
      ∃ s ∈ ((collapse_networks ["10.0.0.0/32".toList, "10.0.0.1/32".toList,
        "10.0.0.2/32".toList]).filterMap (fun s => ip_network true s)).map IPNetwork.toRange,
      s.1 = r.2 + 1) := by
  constructor
  · decide
  · decide

/-- C7 amended: the address ranges of the Network Optimizer's output are
pairwise disjoint, each satisfies start at most end, and they are ordered
strictly ascending by start address; consecutive output ranges may however
be adjacent when one merged run needs several CIDR blocks. -/
theorem c7_output_ranges_invariants (strs : List PyStr) :
    (((collapse_networks strs).filterMap (fun s => ip_network true s)).map
      IPNetwork.toRange).Pairwise (fun x y : Nat × Nat => x.2 < y.1) ∧
    ∀ x ∈ ((collapse_networks strs).filterMap (fun s => ip_network true s)).map
      IPNetwork.toRange, x.1 ≤ x.2 := by
  have hv := parsed_input_valid strs
  have hx : (collapse_networks strs).filterMap (fun s => ip_network true s) =
      collapse_addresses (strs.filterMap (fun s => ip_network true (trimChars s))) :=
    filterMap_parse_output _ (collapse_addresses_valid _ hv)
  rw [hx]
  exact collapse_addresses_ranges _ hv

/-! Helper lemmas: the batch classifier and the dispatcher. -/

theorem fallbackLoop_eq (tree : List IPNetwork) (l : List PyStr) :
    fallbackLoop tree l = _process_ip_batch tree l := by
  induction l with
  | nil => rfl
  | cons raw rest ih =>
    simp only [fallbackLoop, _process_ip_batch, ih]

theorem _process_ip_batch_append (tree : List IPNetwork) (l1 l2 : List PyStr) :
    _process_ip_batch tree (l1 ++ l2) =
      _process_ip_batch tree l1 ++ _process_ip_batch tree l2 := by
  induction l1 with
  | nil => rfl
  | cons raw rest ih =>
    by_cases h1 : (trimChars raw).isEmpty
    · simp [_process_ip_batch, h1, ih]
    · cases hk : entryKey (trimChars raw) with
      | none => simp [_process_ip_batch, h1, hk, ih]
      | some k =>
        by_cases h2 : inTree tree k
        · simp [_process_ip_batch, h1, hk, h2, ih]
        · simp [_process_ip_batch, h1, hk, h2, ih]

theorem _process_ip_batch_filter (tree : List IPNetwork) (batch : List PyStr) :
    _process_ip_batch tree batch = (batch.map trimChars).filter
      (fun e => !e.isEmpty && ((entryKey e).elim false (fun k => inTree tree k))) := by
  induction batch with
  | nil => rfl
  | cons raw rest ih =>
    by_cases h1 : (trimChars raw).isEmpty
    · simp [_process_ip_batch, List.filter_cons, h1, ih]
    · cases hk : entryKey (trimChars raw) with
      | none => simp [_process_ip_batch, List.filter_cons, h1, hk, ih]
      | some k =>
        by_cases h2 : inTree tree k
        · simp [_process_ip_batch, List.filter_cons, h1, hk, h2, ih]
        · simp [_process_ip_batch, List.filter_cons, h1, hk, h2, ih]

theorem chunkGo_flatten (bs : Nat) (hbs : 0 < bs) :
    ∀ (fuel : Nat) (l : List PyStr), l.length ≤ fuel → (chunkGo bs fuel l).flatten = l
  | 0, l, h => by
    cases l with
    | nil => rfl
    | cons x rest => simp at h
  | fuel + 1, [], _ => rfl
  | fuel + 1, x :: rest, h => by
    show ((x :: rest).take bs :: chunkGo bs fuel ((x :: rest).drop bs)).flatten = x :: rest
    simp only [List.flatten_cons]
    rw [chunkGo_flatten bs hbs fuel ((x :: rest).drop bs)
      (by simp only [List.length_drop, List.length_cons] at h ⊢; omega)]
    exact List.take_append_drop bs (x :: rest)

theorem makeBatches_flatten (bs : Nat) (l : List PyStr) (hbs : 0 < bs) :
    (makeBatches bs l).flatten = l :=
  chunkGo_flatten bs hbs l.length l (le_refl _)

theorem batch_map_flatten (tree : List IPNetwork) (bs : List (List PyStr)) :
    (bs.map (_process_ip_batch tree)).flatten = _process_ip_batch tree bs.flatten := by
  induction bs with
  | nil => rfl
  | cons b rest ih =>
    simp only [List.map_cons, List.flatten_cons, _process_ip_batch_append, ih]

/-- C2: with no dispatch failure, the parallel path — contiguous batches of
size max(1, total // (workers * 4)), each classified against the worker
tree, results concatenated — produces exactly the sequential classification
of the whole list: equal as lists, hence equal as multisets, no gaps and no
duplicates. -/
theorem c2_parallel_eq_sequential (optimized_cidrs input : List PyStr) (w : Nat)
    (_hw : 0 < w) :
    process_single_country_filtered optimized_cidrs input w none =
      _process_ip_batch (_init_worker optimized_cidrs) input := by
  show ((makeBatches (batchSizeFor w input.length) input).map
      (_process_ip_batch (_init_worker optimized_cidrs))).flatten = _
  rw [batch_map_flatten,
    makeBatches_flatten _ _ (show 0 < batchSizeFor w input.length by
      unfold batchSizeFor; omega)]

theorem c2_witness :
    process_single_country_filtered ["10.0.0.0/24".toList]
      ["10.0.0.5".toList, "10.0.1.5".toList] 1 none =
      _process_ip_batch (_init_worker ["10.0.0.0/24".toList])
        ["10.0.0.5".toList, "10.0.1.5".toList] :=
  c2_parallel_eq_sequential _ _ 1 (by decide)

/-- C1: evaluation of the code at the failing input.  The claim says a
failed parallel attempt yields exactly the sequential result, but the code
never clears `filtered_ips` in the exception handler: a pool failure after
one of two batch results was consumed keeps that batch's entries and
appends the whole sequential pass, duplicating 10.0.0.5 — a mixed result,
different from the pure sequential result. -/
theorem c1_partial_merge_eval :
    process_single_country_filtered ["10.0.0.0/24".toList]
      ["10.0.0.5".toList, "10.0.0.6".toList] 1 (some 1) =
      ["10.0.0.5".toList, "10.0.0.5".toList, "10.0.0.6".toList] ∧
    process_single_country_filtered ["10.0.0.0/24".toList]
      ["10.0.0.5".toList, "10.0.0.6".toList] 1 (some 1) ≠
      fallbackLoop (_init_worker ["10.0.0.0/24".toList])
        ["10.0.0.5".toList, "10.0.0.6".toList] := by
  constructor
  · decide
  · decide

/-- C3: the Batch Classifier equals a filter over the trimmed entries —
an entry is emitted, whitespace-trimmed but otherwise unchanged, exactly
when it is nonempty and its lookup key (the parsed network's first address
for an entry with a slash, the address itself otherwise, as `entryKey`
embeds) is found in the index; order is therefore the input order.  The
concrete instance of the claim is included. -/
theorem c3_classifier_filter (tree : List IPNetwork) (batch : List PyStr) :
    _process_ip_batch tree batch = (batch.map trimChars).filter
      (fun e => !e.isEmpty && ((entryKey e).elim false (fun k => inTree tree k))) ∧
    _process_ip_batch (_init_worker ["10.0.0.0/24".toList])
      ["10.0.0.5".toList, "10.0.1.5".toList, "10.0.0.0/25".toList] =
      ["10.0.0.5".toList, "10.0.0.0/25".toList] :=
  ⟨_process_ip_batch_filter tree batch, by decide⟩

/-- C4: the Batch Classifier is total over arbitrary strings (it is a plain
function in this embedding and every failure path in the source is a
counted continue): every emitted entry is the trimmed form of some input
entry and is nonempty — so empties are skipped and malformed entries are
dropped rather than aborting the batch — and the claim's concrete instance
evaluates as stated. -/
theorem c4_malformed_tolerated :
    (∀ (tree : List IPNetwork) (batch : List PyStr) (s : PyStr),
      s ∈ _process_ip_batch tree batch → (∃ raw ∈ batch, s = trimChars raw) ∧ s ≠ []) ∧
    _process_ip_batch (_init_worker ["8.8.8.0/24".toList])
      ["not-an-ip".toList, "".toList, "   ".toList, "8.8.8.8".toList] =
      ["8.8.8.8".toList] := by
  constructor
  · intro tree batch s hs
    rw [_process_ip_batch_filter] at hs
    have hmem := List.mem_filter.mp hs
    obtain ⟨raw, hraw, rfl⟩ := List.mem_map.mp hmem.1
    refine ⟨⟨raw, hraw, rfl⟩, ?_⟩
    have hcond := hmem.2
    simp only [Bool.and_eq_true, Bool.not_eq_eq_eq_not, Bool.not_true] at hcond
    intro he
    rw [he] at hcond
    simp at hcond
  · decide

theorem c4_witness :
    (∃ raw ∈ ["not-an-ip".toList, "".toList, "   ".toList, "8.8.8.8".toList],
      "8.8.8.8".toList = trimChars raw) ∧ "8.8.8.8".toList ≠ ([] : PyStr) :=
  c4_malformed_tolerated.1 (_init_worker ["8.8.8.0/24".toList])
    ["not-an-ip".toList, "".toList, "   ".toList, "8.8.8.8".toList]
    "8.8.8.8".toList (by decide)

/-- C10: a CIDR entry with set host bits is not malformed — it parses
non-strictly, its lookup key is the masked network address (for any entry
holding a slash the key is the parsed network's first address), and on a
match it is emitted in its original host-bits-set form: the two entries
10.0.0.5/24 and 10.0.0.7/24 share the key 10.0.0.0 yet both appear in the
output under their own distinct spellings. -/
theorem c10_host_bits_cidr :
    (∀ (s : PyStr) (n : IPNetwork), s.contains '/' = true →
      ip_network false s = some n → entryKey s = some n.addr) ∧
    ip_network false "10.0.0.5/24".toList = some ⟨167772160, 24⟩ ∧
    entryKey "10.0.0.5/24".toList = some 167772160 ∧
    entryKey "10.0.0.7/24".toList = entryKey "10.0.0.5/24".toList ∧
    _process_ip_batch (_init_worker ["10.0.0.0/24".toList])
      ["10.0.0.5/24".toList, "10.0.0.7/24".toList] =
      ["10.0.0.5/24".toList, "10.0.0.7/24".toList] ∧
    "10.0.0.5/24".toList ≠ "10.0.0.7/24".toList := by
  refine ⟨?_, by decide, by decide, by decide, by decide, by decide⟩
  intro s n hs hp
  unfold entryKey
  rw [if_pos hs, hp]
  rfl

theorem c10_witness : entryKey "10.0.0.5/24".toList = some 167772160 :=
  c10_host_bits_cidr.1 "10.0.0.5/24".toList ⟨167772160, 24⟩ (by decide) (by decide)

theorem countP_ext (l : List PyStr) (p q : PyStr → Bool) (h : ∀ a ∈ l, p a = q a) :
    l.countP p = l.countP q := by
  induction l with
  | nil => rfl
  | cons x rest ih =>
    rw [List.countP_cons, List.countP_cons, h x (List.mem_cons_self x rest),
      ih (fun a ha => h a (List.mem_cons_of_mem x ha))]

theorem count_bridge (l : List PyStr) (s : PyStr) :
    l.count s = @List.count PyStr instBEqOfDecidableEq s l := by
  unfold List.count
  refine countP_ext l _ _ ?_
  intro a _
  show (a == s) = decide (a = s)
  rw [Bool.eq_iff_iff, beq_iff_eq, decide_eq_true_eq]

/-- C8: the combined output is the set union of all per-country matched
lists — membership in the combined output is membership in some country's
list — sorted ascending in the lexicographic string order, and every member
occurs exactly once; the concrete two-country duplicate 203.0.113.1
appears once. -/
theorem c8_combined_union_sorted_unique (results : List (List PyStr)) :
    (∀ s : PyStr, s ∈ combined_sorted results ↔ ∃ l ∈ results, s ∈ l) ∧
    (combined_sorted results).Sorted (· ≤ ·) ∧
    (∀ s ∈ combined_sorted results, (combined_sorted results).count s = 1) ∧
    combined_sorted [["203.0.113.1".toList], ["203.0.113.1".toList]] =
      ["203.0.113.1".toList] := by
  have hnd : (combined_sorted results).Nodup :=
    (List.perm_insertionSort _ _).nodup_iff.mpr (List.nodup_dedup _)
  refine ⟨?_, ?_, ?_, by decide⟩
  · intro s
    unfold combined_sorted
    rw [List.mem_insertionSort, List.mem_dedup, List.mem_flatten]
  · exact List.sorted_insertionSort _ _
  · intro s hs
    rw [count_bridge]
    exact List.count_eq_one_of_mem hnd hs

/-- C9 counterexample: with an explicit override of 8 and an available
parallelism of 2 the code computes min(8, 4) = 4 workers, while the
claimed formula min(min(8, 2), 4) gives 2 — an explicit override is not
capped by the machine's available parallelism, refuting the claim. -/
theorem c9_override_not_capped_counterexample :
    optimal_workers (NUM_WORKERS_OVERRIDE (some 8)) 2 = 4 ∧
    specWorkerCount (NUM_WORKERS_OVERRIDE (some 8)) 2 = 2 ∧
    optimal_workers (NUM_WORKERS_OVERRIDE (some 8)) 2 ≠
      specWorkerCount (NUM_WORKERS_OVERRIDE (some 8)) 2 := by
  refine ⟨rfl, rfl, by decide⟩

/-- C9 amended: the worker count is min(override if provided else the cpu
count, 4) — never above 4, min(cpu, 4) without an override, min(override, 4)
with one; the override itself is clamped below to 1 but never capped by the
available parallelism. -/
theorem c9_worker_count_formula (ov : Option Nat) (cpu n : Nat) :
    optimal_workers ov cpu ≤ 4 ∧
    optimal_workers none cpu = min cpu 4 ∧
    optimal_workers (some n) cpu = min n 4 ∧
    NUM_WORKERS_OVERRIDE (some (Int.ofNat n)) = some (max 1 n) := by
  refine ⟨Nat.min_le_right _ 4, rfl, rfl, ?_⟩
  simp [NUM_WORKERS_OVERRIDE]

theorem c8_witness :
    (combined_sorted [["203.0.113.1".toList]]).count "203.0.113.1".toList = 1 :=
  (c8_combined_union_sorted_unique [["203.0.113.1".toList]]).2.2.1
    "203.0.113.1".toList (by decide)
